import Mathlib

/-!
Shallow embedding of the Context Compression Middleware
(`src/context-compression.ts`, class `ContextCompressionMiddleware`) of the
cost-performance-optimizer repository, together with theorems settling the
frozen specification claims about it.

Modelling conventions:
* A JS `ContextItem` becomes `Frag`; its `id` string `ctx_N` is modelled by
  the number `N`, and its `Date` timestamp by a monotone `Nat` tick (each
  `addItem` draws a fresh, strictly larger tick, matching the spec's
  "monotonic creation timestamp").
* JS `number` priorities become exact rationals `ℚ` (no claim here depends
  on floating-point rounding), sizes become `Nat`, and the capacity
  `maxSize` becomes `Int`.
* `Array.prototype.sort` is guaranteed stable by ECMA-262; a stable sort is
  uniquely determined by the comparator's total preorder, so it is modelled
  by Mathlib's stable `List.insertionSort` with the relation
  "comparator(a, b) ≤ 0" (read: `a` may come before `b`).
* In-place object mutation (`item.archived = true`, `item.priority = …`,
  `this.archivedItems.sort(…)`) is modelled by explicit functional update of
  the engine state, preserving the aliasing behaviour of the source.
-/

namespace ContextCompression

/-- A context fragment: `ContextItem` from `src/types.ts`. -/
structure Frag where
  id : Nat
  content : String
  priority : ℚ
  timestamp : Nat
  archived : Bool
deriving DecidableEq, Repr

/-- Size estimator: `Math.ceil(item.content.length / 4)` from `getCurrentSize`. -/
def est (s : String) : Nat := (s.length + 3) / 4

/-- Sum of estimated sizes of a list of fragments (the `reduce` in
`getCurrentSize` and the `instructionsSize` computation in `compress`). -/
def sizesSum (l : List Frag) : Nat := (l.map fun f => est f.content).sum

/-- The mutable state of a `ContextCompressionMiddleware` instance. -/
structure Engine where
  maxSize : Int
  preserveInstructionsAtStart : Bool
  instructionsContent : String
  archiveThreshold : ℚ
  items : List Frag
  archivedItems : List Frag
  idCounter : Nat
deriving DecidableEq, Repr

/-- Constructor options (`ContextCompressionOptions`), with the defaults
applied by the constructor (`?? true`, `|| ''`, `?? 0.3`). -/
structure EngineOptions where
  maxSize : Int
  preserveInstructionsAtStart : Bool := true
  instructionsContent : String := ""
  archiveThreshold : ℚ := mkRat 3 10

/-- The constructor of `ContextCompressionMiddleware`. -/
def mkEngine (o : EngineOptions) : Engine :=
  { maxSize := o.maxSize
    preserveInstructionsAtStart := o.preserveInstructionsAtStart
    instructionsContent := o.instructionsContent
    archiveThreshold := o.archiveThreshold
    items := []
    archivedItems := []
    idCounter := 0 }

/-- `getCurrentSize()`. -/
def currentSize (st : Engine) : Nat := sizesSum st.items

/-- The `item.priority > 0.9` test used throughout `compress`,
`getFormattedContext` and the final presentation sort. -/
def isCritical (f : Frag) : Prop := mkRat 9 10 < f.priority

instance : DecidablePred isCritical :=
  fun f => inferInstanceAs (Decidable (mkRat 9 10 < f.priority))

/-- The priority comparator `(a, b) => b.priority - a.priority`, read as the
relation "`a` may come before `b`" (comparator value ≤ 0). -/
def priGe (a b : Frag) : Prop := b.priority ≤ a.priority

instance : DecidableRel priGe :=
  fun a b => inferInstanceAs (Decidable (b.priority ≤ a.priority))

instance : IsTotal Frag priGe := ⟨fun a b => le_total b.priority a.priority⟩

instance : IsTrans Frag priGe := ⟨fun _ _ _ h1 h2 => le_trans h2 h1⟩

/-- The presentation comparator of `compress` (and `getFormattedContext`):
fragments with `priority > 0.9` first, then timestamp descending; read as
"`a` may come before `b`" (comparator value ≤ 0). -/
def finalRel (a b : Frag) : Prop :=
  (isCritical a ∧ ¬ isCritical b) ∨
    ((isCritical a ↔ isCritical b) ∧ b.timestamp ≤ a.timestamp)

instance : DecidableRel finalRel := fun a b => by
  unfold finalRel
  infer_instance

/-- The greedy packing loop of `compress`: `cur` is the running
`currentSize`, `avail` the `availableSize`; returns (kept, archived-now)
in encounter order. -/
def packLoop (avail : Int) : Nat → List Frag → List Frag × List Frag
  | _, [] => ([], [])
  | cur, f :: fs =>
    if (cur : Int) + est f.content ≤ avail then
      let r := packLoop avail (cur + est f.content) fs
      (f :: r.1, r.2)
    else
      let r := packLoop avail cur fs
      (r.1, f :: r.2)

/-- The truthiness test `this.preserveInstructionsAtStart && this.instructionsContent`. -/
def compressPinning (st : Engine) : Bool :=
  st.preserveInstructionsAtStart && !(st.instructionsContent == "")

/-- `[...this.items].sort((a, b) => b.priority - a.priority)`. -/
def compressSorted (st : Engine) : List Frag :=
  List.insertionSort priGe st.items

/-- The `instructions` array of `compress` (critical fragments, only
separated out when pinning is enabled and the pinned text is non-empty). -/
def compressInstructions (st : Engine) : List Frag :=
  if compressPinning st then
    (compressSorted st).filter fun f => decide (isCritical f)
  else []

/-- The `regularItems` array of `compress`. -/
def compressRegular (st : Engine) : List Frag :=
  if compressPinning st then
    (compressSorted st).filter fun f => !decide (isCritical f)
  else compressSorted st

/-- `availableSize = this.maxSize - instructionsSize` in `compress`. -/
def compressAvailable (st : Engine) : Int :=
  st.maxSize - sizesSum (compressInstructions st)

/-- The result of the greedy packing pass of `compress`. -/
def compressPacked (st : Engine) : List Frag × List Frag :=
  packLoop (compressAvailable st) 0 (compressRegular st)

/-- The fragments newly moved to the archive by one `compress` run (empty on
the no-op fast path). -/
def newlyArchived (st : Engine) : List Frag :=
  if (currentSize st : Int) ≤ st.maxSize then []
  else (compressPacked st).2.map fun f => { f with archived := true }

/-- `compress()`: state effect only (the returned `CompressionResult` is a
pure function of the before/after states and is not needed by any claim). -/
def compress (st : Engine) : Engine :=
  if (currentSize st : Int) ≤ st.maxSize then st
  else
    { st with
      items :=
        List.insertionSort finalRel
          (compressInstructions st ++ (compressPacked st).1)
      archivedItems :=
        st.archivedItems ++
          ((compressPacked st).2.map fun f => { f with archived := true }) }

/-- `addItem(content, priority)`: fresh id `ctx_{++idCounter}` (modelled as
the counter value), fresh monotone timestamp, `archived: false`, push, then
`compress`. -/
def addItem (st : Engine) (content : String) (priority : ℚ) : Engine :=
  let newId := st.idCounter + 1
  let frag : Frag :=
    { id := newId, content := content, priority := priority
      timestamp := newId, archived := false }
  compress { st with items := st.items ++ [frag], idCounter := newId }

/-- In-place update of the first fragment with the given id (the object
mutation after `this.items.find(...)`). -/
def setPriorityFirst (itemId : Nat) (p : ℚ) : List Frag → List Frag
  | [] => []
  | f :: fs =>
    if f.id = itemId then { f with priority := p } :: fs
    else f :: setPriorityFirst itemId p fs

/-- `updatePriority(itemId, priority)`: clamps via
`Math.max(0, Math.min(1, priority))`; returns false and leaves the state
unchanged when no resident fragment has the id. -/
def updatePriority (st : Engine) (itemId : Nat) (priority : ℚ) : Bool × Engine :=
  if st.items.any fun f => f.id == itemId then
    (true,
      { st with
        items := setPriorityFirst itemId (max 0 (min 1 priority)) st.items })
  else (false, st)

/-- Remove the first element satisfying `p`, returning it and the rest
(`findIndex` + `splice(index, 1)`). -/
def removeFirst (p : Frag → Bool) : List Frag → Option (Frag × List Frag)
  | [] => none
  | f :: fs =>
    if p f then some (f, fs)
    else (removeFirst p fs).map fun r => (r.1, f :: r.2)

/-- `removeItem(itemId)`. -/
def removeItem (st : Engine) (itemId : Nat) : Bool × Engine :=
  match removeFirst (fun f => f.id == itemId) st.items with
  | some (_, rest) => (true, { st with items := rest })
  | none => (false, st)

/-- `restoreItem(itemId)`: splice out of the archive, clear the archived
flag, push onto the resident list, then `compress`. -/
def restoreItem (st : Engine) (itemId : Nat) : Bool × Engine :=
  match removeFirst (fun f => f.id == itemId) st.archivedItems with
  | some (item, rest) =>
    (true,
      compress
        { st with
          archivedItems := rest
          items := st.items ++ [{ item with archived := false }] })
  | none => (false, st)

/-- `archiveLowPriority()`: sets the archived flag on every resident
fragment with `priority < archiveThreshold` (shared-object mutation), pushes
those fragments onto the archive, then keeps the residents whose flag is
still clear. -/
def archiveLowPriority (st : Engine) : Nat × Engine :=
  let toArchive := st.items.filter fun f => decide (f.priority < st.archiveThreshold)
  let mutated := st.items.map fun f =>
    if f.priority < st.archiveThreshold then { f with archived := true } else f
  (toArchive.length,
    { st with
      items := mutated.filter fun f => !f.archived
      archivedItems :=
        st.archivedItems ++ (toArchive.map fun f => { f with archived := true }) })

/-- `clear()`. -/
def clear (st : Engine) : Engine :=
  { st with items := [], archivedItems := [] }

/-- `clearArchived()`. -/
def clearArchived (st : Engine) : Engine :=
  { st with archivedItems := [] }

/-- Timestamp-descending comparator `(a, b) => b.timestamp - a.timestamp`
used by `summarizeArchived`, as "`a` may come before `b`". -/
def tsGe (a b : Frag) : Prop := b.timestamp ≤ a.timestamp

instance : DecidableRel tsGe :=
  fun a b => inferInstanceAs (Decidable (b.timestamp ≤ a.timestamp))

/-- Preview of one archived item:
`content.substring(0, 50) + (content.length > 50 ? '...' : '')`. -/
def preview (s : String) : String :=
  (s.take 50) ++ (if s.length > 50 then "..." else "")

/-- One summary line per archived item (index, timestamp tag, preview). -/
def summaryLines : Nat → List Frag → String
  | _, [] => ""
  | i, f :: fs =>
    toString (i + 1) ++ ". [" ++ toString f.timestamp ++ "] " ++
      preview f.content ++ "\n" ++ summaryLines (i + 1) fs

/-- `summarizeArchived(maxItems)`: NOTE the source sorts
`this.archivedItems` in place (`this.archivedItems.sort(...)`, no copy), so
the state's archive order changes; the model returns the new state alongside
the summary text. -/
def summarizeArchived (st : Engine) (maxItems : Nat) : String × Engine :=
  let sorted := List.insertionSort tsGe st.archivedItems
  let st' := { st with archivedItems := sorted }
  let chosen := sorted.take maxItems
  if chosen.isEmpty then ("No archived items to summarize.", st')
  else ("Archived Context Summary:\n" ++ summaryLines 0 chosen, st')

/-- The engine operations named by the reachability claims. -/
inductive Op where
  | addItem (content : String) (priority : ℚ)
  | updatePriority (itemId : Nat) (priority : ℚ)
  | removeItem (itemId : Nat)
  | restoreItem (itemId : Nat)
  | archiveLowPriority
  | compress
  | clear
  | clearArchived
deriving DecidableEq, Repr

/-- One engine operation applied to a state. -/
def step (st : Engine) : Op → Engine
  | .addItem c p => addItem st c p
  | .updatePriority i p => (updatePriority st i p).2
  | .removeItem i => (removeItem st i).2
  | .restoreItem i => (restoreItem st i).2
  | .archiveLowPriority => (archiveLowPriority st).2
  | .compress => compress st
  | .clear => clear st
  | .clearArchived => clearArchived st

/-- Run a sequence of operations from a freshly constructed engine. -/
def run (o : EngineOptions) (ops : List Op) : Engine :=
  ops.foldl step (mkEngine o)

/-- Identifier projection of a fragment list. -/
def idsOf (l : List Frag) : List Nat := l.map Frag.id

theorem idsOf_nil : idsOf [] = [] := rfl

theorem idsOf_cons (f : Frag) (l : List Frag) :
    idsOf (f :: l) = f.id :: idsOf l := rfl

theorem idsOf_append (l l' : List Frag) :
    idsOf (l ++ l') = idsOf l ++ idsOf l' := List.map_append Frag.id l l'

theorem sizesSum_nil : sizesSum [] = 0 := rfl

theorem sizesSum_cons (f : Frag) (l : List Frag) :
    sizesSum (f :: l) = est f.content + sizesSum l := by
  simp [sizesSum]

theorem packLoop_cons (avail : Int) (cur : Nat) (f : Frag) (fs : List Frag) :
    packLoop avail cur (f :: fs) =
      if (cur : Int) + est f.content ≤ avail then
        ((f :: (packLoop avail (cur + est f.content) fs).1),
          (packLoop avail (cur + est f.content) fs).2)
      else
        ((packLoop avail cur fs).1, f :: (packLoop avail cur fs).2) := by
  rw [packLoop]

/-- The kept list of the packing loop is a subsequence of its input. -/
theorem packLoop_kept_sublist (avail : Int) :
    ∀ (l : List Frag) (cur : Nat), (packLoop avail cur l).1.Sublist l := by
  intro l
  induction l with
  | nil => intro cur; simp [packLoop]
  | cons f fs ih =>
    intro cur
    rw [packLoop_cons]
    by_cases hc : (cur : Int) + est f.content ≤ avail
    · rw [if_pos hc]
      exact (ih (cur + est f.content)).cons₂ f
    · rw [if_neg hc]
      exact (ih cur).cons f

/-- The rejected list of the packing loop is a subsequence of its input. -/
theorem packLoop_rej_sublist (avail : Int) :
    ∀ (l : List Frag) (cur : Nat), (packLoop avail cur l).2.Sublist l := by
  intro l
  induction l with
  | nil => intro cur; simp [packLoop]
  | cons f fs ih =>
    intro cur
    rw [packLoop_cons]
    by_cases hc : (cur : Int) + est f.content ≤ avail
    · rw [if_pos hc]
      exact (ih (cur + est f.content)).cons f
    · rw [if_neg hc]
      exact (ih cur).cons₂ f

/-- The packing loop partitions its input: kept and rejected together are a
permutation of the input list. -/
theorem packLoop_perm (avail : Int) :
    ∀ (l : List Frag) (cur : Nat),
      ((packLoop avail cur l).1 ++ (packLoop avail cur l).2).Perm l := by
  intro l
  induction l with
  | nil => intro cur; simp [packLoop]
  | cons f fs ih =>
    intro cur
    rw [packLoop_cons]
    by_cases hc : (cur : Int) + est f.content ≤ avail
    · rw [if_pos hc]
      exact (ih (cur + est f.content)).cons f
    · rw [if_neg hc]
      exact List.perm_middle.trans ((ih cur).cons f)

/-- Every fragment the loop keeps would fit even at the entry value of the
running size (the running size only grows along the loop). -/
theorem packLoop_mem_kept_le (avail : Int) :
    ∀ (l : List Frag) (cur : Nat) (b : Frag),
      b ∈ (packLoop avail cur l).1 → (cur : Int) + est b.content ≤ avail := by
  intro l
  induction l with
  | nil => intro cur b hb; simp [packLoop] at hb
  | cons f fs ih =>
    intro cur b hb
    rw [packLoop_cons] at hb
    by_cases hc : (cur : Int) + est f.content ≤ avail
    · rw [if_pos hc] at hb
      rcases List.mem_cons.mp hb with rfl | hb
      · exact hc
      · have h2 := ih (cur + est f.content) b hb
        have : ((cur + est f.content : Nat) : Int) = (cur : Int) + est f.content := by
          push_cast
          ring
        rw [this] at h2
        have hnn : (0 : Int) ≤ est f.content := Int.ofNat_nonneg _
        linarith
    · rw [if_neg hc] at hb
      exact ih cur b hb

/-- Total size bound for the kept fragments of the packing loop. -/
theorem packLoop_kept_sum (avail : Int) :
    ∀ (l : List Frag) (cur : Nat),
      (cur : Int) + sizesSum (packLoop avail cur l).1 ≤ max avail cur := by
  intro l
  induction l with
  | nil => intro cur; simp [packLoop, sizesSum_nil, le_max_right]
  | cons f fs ih =>
    intro cur
    rw [packLoop_cons]
    by_cases hc : (cur : Int) + est f.content ≤ avail
    · rw [if_pos hc]
      have h2 := ih (cur + est f.content)
      have hle : ((cur + est f.content : Nat) : Int) ≤ avail := by
        push_cast
        exact hc
      rw [max_eq_left hle] at h2
      rw [sizesSum_cons]
      have hmax : avail ≤ max avail (cur : Int) := le_max_left _ _
      push_cast at h2 ⊢
      linarith
    · rw [if_neg hc]
      exact ih cur

/-- Keeping is monotone along the loop for equal sizes: if some later
element is kept, an earlier element of the same size is kept as well. -/
theorem packLoop_mono (avail : Int) {a b : Frag} :
    ∀ (l : List Frag) (cur : Nat), [a, b].Sublist l → (idsOf l).Nodup →
      est a.content = est b.content →
      b ∈ (packLoop avail cur l).1 → a ∈ (packLoop avail cur l).1 := by
  intro l
  induction l with
  | nil =>
    intro cur hsub
    simp at hsub
  | cons f fs ih =>
    intro cur hsub hn hest hb
    rw [idsOf_cons, List.nodup_cons] at hn
    rw [packLoop_cons] at hb ⊢
    cases hsub with
    | cons₂ _ hsub' =>
      by_cases hc : (cur : Int) + est a.content ≤ avail
      · rw [if_pos hc] at hb ⊢
        exact List.mem_cons_self a _
      · rw [if_neg hc] at hb
        have hble := packLoop_mem_kept_le avail fs cur b hb
        rw [← hest] at hble
        exact absurd hble hc
    | cons _ hsub' =>
      have hbfs : b ∈ fs := hsub'.subset (by simp)
      by_cases hc : (cur : Int) + est f.content ≤ avail
      · rw [if_pos hc] at hb ⊢
        rcases List.mem_cons.mp hb with rfl | hb2
        · exact absurd (List.mem_map_of_mem Frag.id hbfs) hn.1
        · exact List.mem_cons_of_mem f (ih (cur + est f.content) hsub' hn.2 hest hb2)
      · rw [if_neg hc] at hb ⊢
        exact ih cur hsub' hn.2 hest hb

/-- An element too big to fit even at the entry running size is always
rejected (the running size never decreases). -/
theorem packLoop_reject_of_big (avail : Int) {g : Frag} :
    ∀ (l : List Frag) (cur : Nat), g ∈ l → avail < (cur : Int) + est g.content →
      g ∈ (packLoop avail cur l).2 := by
  intro l
  induction l with
  | nil => intro cur hg; simp at hg
  | cons f fs ih =>
    intro cur hg hbig
    rw [packLoop_cons]
    rcases List.mem_cons.mp hg with rfl | hg2
    · have hc : ¬ ((cur : Int) + est g.content ≤ avail) := not_le.mpr hbig
      rw [if_neg hc]
      exact List.mem_cons_self g _
    · by_cases hc : (cur : Int) + est f.content ≤ avail
      · rw [if_pos hc]
        refine ih (cur + est f.content) hg2 ?_
        have hnn : (0 : Int) ≤ est f.content := Int.ofNat_nonneg _
        push_cast
        linarith
      · rw [if_neg hc]
        exact List.mem_cons_of_mem f (ih cur hg2 hbig)

/-- Rejection is monotone in size along the loop: an element at least as
big as an earlier rejected element is also rejected. -/
theorem packLoop_reject_mono (avail : Int) {f g : Frag} :
    ∀ (l : List Frag) (cur : Nat), [f, g].Sublist l → (idsOf l).Nodup →
      est f.content ≤ est g.content → f ∈ (packLoop avail cur l).2 →
      g ∈ (packLoop avail cur l).2 := by
  intro l
  induction l with
  | nil =>
    intro cur hsub
    simp at hsub
  | cons x xs ih =>
    intro cur hsub hn hest hf
    rw [idsOf_cons, List.nodup_cons] at hn
    rw [packLoop_cons] at hf ⊢
    cases hsub with
    | cons₂ _ hsub' =>
      have hgxs : g ∈ xs := hsub'.subset (by simp)
      by_cases hc : (cur : Int) + est f.content ≤ avail
      · rw [if_pos hc] at hf
        have : f ∈ xs := (packLoop_rej_sublist avail xs (cur + est f.content)).subset hf
        exact absurd (List.mem_map_of_mem Frag.id this) hn.1
      · rw [if_neg hc] at hf ⊢
        refine List.mem_cons_of_mem f (packLoop_reject_of_big avail xs cur hgxs ?_)
        have := not_le.mp hc
        have hle : (est f.content : Int) ≤ est g.content := Int.ofNat_le.mpr hest
        linarith
    | cons _ hsub' =>
      have hffs : f ∈ xs := hsub'.subset (by simp)
      by_cases hc : (cur : Int) + est x.content ≤ avail
      · rw [if_pos hc] at hf ⊢
        exact ih (cur + est x.content) hsub' hn.2 hest hf
      · rw [if_neg hc] at hf ⊢
        rcases List.mem_cons.mp hf with rfl | hf2
        · exact absurd (List.mem_map_of_mem Frag.id hffs) hn.1
        · exact List.mem_cons_of_mem x (ih cur hsub' hn.2 hest hf2)

/-- In a list sorted by a pairwise relation, an element not below another
occurs before every occurrence of it. -/
theorem pair_sublist_of_pairwise {α : Type} {r : α → α → Prop} :
    ∀ {l : List α} {a b : α}, l.Pairwise r → a ∈ l → b ∈ l → ¬ r b a →
      a ≠ b → [a, b].Sublist l := by
  intro l
  induction l with
  | nil => intro a b _ ha; simp at ha
  | cons x xs ih =>
    intro a b hp ha hb hnr hne
    have hx := (List.pairwise_cons.mp hp).1
    have hp' := (List.pairwise_cons.mp hp).2
    rcases List.mem_cons.mp ha with rfl | ha2
    · rcases List.mem_cons.mp hb with rfl | hb2
      · exact absurd rfl hne
      · exact (List.singleton_sublist.mpr hb2).cons₂ a
    · rcases List.mem_cons.mp hb with rfl | hb2
      · exact absurd (hx a ha2) hnr
      · exact (ih hp' ha2 hb2 hnr hne).cons x

/-- In a list with no duplicate identifiers, membership plus equal ids
forces equality of the fragments. -/
theorem eq_of_mem_of_id_eq :
    ∀ {l : List Frag} {a b : Frag}, (idsOf l).Nodup → a ∈ l → b ∈ l →
      a.id = b.id → a = b := by
  intro l
  induction l with
  | nil => intro a b _ ha; simp at ha
  | cons x xs ih =>
    intro a b hn ha hb hid
    rw [idsOf_cons, List.nodup_cons] at hn
    rcases List.mem_cons.mp ha with rfl | ha2
    · rcases List.mem_cons.mp hb with rfl | hb2
      · rfl
      · exact absurd (hid ▸ List.mem_map_of_mem Frag.id hb2) hn.1
    · rcases List.mem_cons.mp hb with rfl | hb2
      · exact absurd (hid ▸ List.mem_map_of_mem Frag.id ha2) hn.1
      · exact ih hn.2 ha2 hb2 hid

/-- A filter and its complement partition a list, up to permutation. -/
theorem filter_not_filter_perm {α : Type} (p : α → Bool) :
    ∀ l : List α, (l.filter p ++ l.filter fun a => !p a).Perm l := by
  intro l
  induction l with
  | nil => simp
  | cons x xs ih =>
    by_cases hp : p x
    · rw [List.filter_cons_of_pos hp, List.filter_cons_of_neg (by simp [hp])]
      exact ih.cons x
    · rw [List.filter_cons_of_neg (by simp [hp]),
        List.filter_cons_of_pos (by simp [hp])]
      exact List.perm_middle.trans (ih.cons x)

theorem compress_of_le {st : Engine} (h : (currentSize st : Int) ≤ st.maxSize) :
    compress st = st := by
  rw [compress, if_pos h]

theorem compress_items_of_gt {st : Engine}
    (h : ¬ (currentSize st : Int) ≤ st.maxSize) :
    (compress st).items =
      List.insertionSort finalRel
        (compressInstructions st ++ (compressPacked st).1) := by
  rw [compress, if_neg h]

theorem compress_arch_eq (st : Engine) :
    (compress st).archivedItems = st.archivedItems ++ newlyArchived st := by
  rw [compress, newlyArchived]
  by_cases h : (currentSize st : Int) ≤ st.maxSize
  · rw [if_pos h, if_pos h, List.append_nil]
  · rw [if_neg h, if_neg h]

theorem compress_idCounter (st : Engine) :
    (compress st).idCounter = st.idCounter := by
  rw [compress]
  split <;> rfl

theorem compress_maxSize (st : Engine) : (compress st).maxSize = st.maxSize := by
  rw [compress]
  split <;> rfl

theorem compressSorted_perm (st : Engine) : (compressSorted st).Perm st.items :=
  List.perm_insertionSort priGe st.items

theorem mem_compressRegular {st : Engine} {f : Frag}
    (h : f ∈ compressRegular st) : f ∈ st.items := by
  rw [compressRegular] at h
  split at h
  · exact (compressSorted_perm st).mem_iff.mp (List.mem_of_mem_filter h)
  · exact (compressSorted_perm st).mem_iff.mp h

theorem mem_compressInstructions {st : Engine} {f : Frag}
    (h : f ∈ compressInstructions st) : f ∈ st.items ∧ isCritical f := by
  rw [compressInstructions] at h
  split at h
  · have h2 := List.mem_filter.mp h
    exact ⟨(compressSorted_perm st).mem_iff.mp h2.1, of_decide_eq_true h2.2⟩
  · simp at h

theorem mem_compressRegular_not_crit {st : Engine} {f : Frag}
    (hpin : compressPinning st = true) (h : f ∈ compressRegular st) :
    ¬ isCritical f := by
  rw [compressRegular, if_pos hpin] at h
  have h2 := List.mem_filter.mp h
  simpa using h2.2

theorem mem_compressRegular_of {st : Engine} {f : Frag} (hf : f ∈ st.items)
    (hnc : ¬ isCritical f) : f ∈ compressRegular st := by
  rw [compressRegular]
  have hs : f ∈ compressSorted st := (compressSorted_perm st).mem_iff.mpr hf
  split
  · exact List.mem_filter.mpr ⟨hs, by simpa using hnc⟩
  · exact hs

theorem mem_compressInstructions_of {st : Engine} {f : Frag}
    (hpin : compressPinning st = true) (hf : f ∈ st.items)
    (hc : isCritical f) : f ∈ compressInstructions st := by
  rw [compressInstructions, if_pos hpin]
  exact List.mem_filter.mpr ⟨(compressSorted_perm st).mem_iff.mpr hf, by
    simpa using hc⟩

/-- Every resident fragment surviving `compress` was resident before, with
identical field values. -/
theorem mem_compress_items {st : Engine} {f : Frag}
    (h : f ∈ (compress st).items) : f ∈ st.items := by
  by_cases hle : (currentSize st : Int) ≤ st.maxSize
  · rw [compress_of_le hle] at h
    exact h
  · rw [compress_items_of_gt hle] at h
    rcases List.mem_append.mp ((List.mem_insertionSort finalRel).mp h) with h2 | h2
    · exact (mem_compressInstructions h2).1
    · exact mem_compressRegular
        ((packLoop_kept_sublist _ _ _).subset h2)

theorem mem_newlyArchived {st : Engine} {g : Frag} (h : g ∈ newlyArchived st) :
    ∃ r ∈ st.items, g = { r with archived := true } ∧
      (compressPinning st = true → ¬ isCritical r) := by
  rw [newlyArchived] at h
  split at h
  · simp at h
  · rcases List.mem_map.mp h with ⟨r, hr, rfl⟩
    have hreg : r ∈ compressRegular st := (packLoop_rej_sublist _ _ _).subset hr
    exact ⟨r, mem_compressRegular hreg, rfl,
      fun hp => mem_compressRegular_not_crit hp hreg⟩

theorem mem_compress_arch {st : Engine} {g : Frag}
    (h : g ∈ (compress st).archivedItems) :
    g ∈ st.archivedItems ∨ ∃ r ∈ st.items, g = { r with archived := true } := by
  rw [compress_arch_eq] at h
  rcases List.mem_append.mp h with h2 | h2
  · exact Or.inl h2
  · rcases mem_newlyArchived h2 with ⟨r, hr, rfl, _⟩
    exact Or.inr ⟨r, hr, rfl⟩

/-- Setting the archived flag preserves identifiers. -/
theorem idsOf_map_set_archived (l : List Frag) (b : Bool) :
    idsOf (l.map fun f => { f with archived := b }) = idsOf l := by
  rw [idsOf, idsOf, List.map_map]
  rfl

/-- One `compress` run partitions the resident identifiers between the new
resident list and the newly archived fragments. -/
theorem compress_ids_perm (st : Engine) :
    (idsOf (compress st).items ++ idsOf (newlyArchived st)).Perm
      (idsOf st.items) := by
  by_cases hle : (currentSize st : Int) ≤ st.maxSize
  · rw [compress_of_le hle, newlyArchived, if_pos hle, idsOf_nil,
      List.append_nil]
  · rw [compress_items_of_gt hle, newlyArchived, if_neg hle]
    have h1 : (idsOf (List.insertionSort finalRel
        (compressInstructions st ++ (compressPacked st).1))).Perm
        (idsOf (compressInstructions st) ++ idsOf (compressPacked st).1) := by
      rw [← idsOf_append]
      exact (List.perm_insertionSort finalRel _).map Frag.id
    rw [idsOf_map_set_archived]
    have h2 : ((idsOf (compressInstructions st) ++ idsOf (compressPacked st).1)
        ++ idsOf (compressPacked st).2).Perm
        (idsOf (compressInstructions st) ++ idsOf (compressRegular st)) := by
      rw [List.append_assoc]
      refine List.Perm.append_left _ ?_
      rw [← idsOf_append]
      exact (packLoop_perm _ _ _).map Frag.id
    have h3 : (idsOf (compressInstructions st) ++
        idsOf (compressRegular st)).Perm (idsOf st.items) := by
      rw [← idsOf_append]
      refine List.Perm.map Frag.id ?_
      rw [compressInstructions, compressRegular]
      by_cases hpin : compressPinning st
      · rw [if_pos hpin, if_pos hpin]
        exact (filter_not_filter_perm _ _).trans (compressSorted_perm st)
      · rw [if_neg hpin, if_neg hpin, List.nil_append]
        exact compressSorted_perm st
    exact ((h1.append_right _).trans h2).trans h3

/-- Structural invariant carried through every engine operation: no
duplicate identifier anywhere, resident fragments have a clear archived
flag, and every identifier was drawn from the id counter. -/
def Inv (st : Engine) : Prop :=
  (idsOf (st.items ++ st.archivedItems)).Nodup ∧
    (∀ f ∈ st.items, f.archived = false) ∧
    (∀ f ∈ st.items ++ st.archivedItems, f.id ≤ st.idCounter)

theorem Inv_compress {st : Engine} (h : Inv st) : Inv (compress st) := by
  obtain ⟨hn, hfl, hb⟩ := h
  have h1 := compress_ids_perm st
  have hperm : (idsOf ((compress st).items ++ (compress st).archivedItems)).Perm
      (idsOf (st.items ++ st.archivedItems)) := by
    rw [idsOf_append, idsOf_append, compress_arch_eq, idsOf_append]
    refine (List.Perm.append_left _ List.perm_append_comm).trans ?_
    rw [← List.append_assoc]
    exact h1.append_right _
  refine ⟨hperm.nodup_iff.mpr hn, ?_, ?_⟩
  · intro f hf
    exact hfl f (mem_compress_items hf)
  · intro f hf
    rw [compress_idCounter]
    rcases List.mem_append.mp hf with hf2 | hf2
    · exact hb f (List.mem_append_left _ (mem_compress_items hf2))
    · rcases mem_compress_arch hf2 with h3 | ⟨r, hr, rfl⟩
      · exact hb f (List.mem_append_right _ h3)
      · exact hb r (List.mem_append_left _ hr)

theorem Inv_addItem {st : Engine} (h : Inv st) (c : String) (p : ℚ) :
    Inv (addItem st c p) := by
  obtain ⟨hn, hfl, hb⟩ := h
  refine Inv_compress ⟨?_, ?_, ?_⟩
  · have hfresh : (st.idCounter + 1) ∉
        idsOf (st.items ++ st.archivedItems) := by
      intro hmem
      rcases List.mem_map.mp hmem with ⟨g, hg, hgid⟩
      have := hb g hg
      omega
    have hpm : (idsOf ((st.items ++
        [{ id := st.idCounter + 1, content := c, priority := p,
           timestamp := st.idCounter + 1, archived := false }]) ++
        st.archivedItems)).Perm
        ((st.idCounter + 1) :: idsOf (st.items ++ st.archivedItems)) := by
      rw [idsOf_append, idsOf_append, idsOf_append]
      refine (List.perm_append_comm.append_right _).trans ?_
      exact List.Perm.refl _
    exact hpm.nodup_iff.mpr (List.nodup_cons.mpr ⟨hfresh, hn⟩)
  · intro f hf
    rcases List.mem_append.mp hf with hf2 | hf2
    · exact hfl f hf2
    · rw [List.mem_singleton.mp hf2]
  · intro f hf
    rcases List.mem_append.mp hf with hf2 | hf2
    · rcases List.mem_append.mp hf2 with hf3 | hf3
      · exact le_trans (hb f (List.mem_append_left _ hf3)) (Nat.le_succ _)
      · rw [List.mem_singleton.mp hf3]
    · exact le_trans (hb f (List.mem_append_right _ hf2)) (Nat.le_succ _)

theorem idsOf_setPriorityFirst :
    ∀ (l : List Frag) (i : Nat) (p : ℚ),
      idsOf (setPriorityFirst i p l) = idsOf l := by
  intro l
  induction l with
  | nil => intro i p; rfl
  | cons f fs ih =>
    intro i p
    rw [setPriorityFirst]
    split
    · rfl
    · rw [idsOf_cons, idsOf_cons, ih]

theorem mem_setPriorityFirst :
    ∀ {l : List Frag} {i : Nat} {p : ℚ} {f : Frag},
      f ∈ setPriorityFirst i p l →
      ∃ g ∈ l, f.id = g.id ∧ f.archived = g.archived ∧
        f.content = g.content ∧ f.timestamp = g.timestamp ∧
        (f.priority = g.priority ∨ f.priority = p) := by
  intro l
  induction l with
  | nil => intro i p f hf; exact absurd hf (List.not_mem_nil f)
  | cons x xs ih =>
    intro i p f hf
    rw [setPriorityFirst] at hf
    split at hf
    · rcases List.mem_cons.mp hf with rfl | hf2
      · exact ⟨x, List.mem_cons_self x xs, rfl, rfl, rfl, rfl, Or.inr rfl⟩
      · exact ⟨f, List.mem_cons_of_mem x hf2, rfl, rfl, rfl, rfl, Or.inl rfl⟩
    · rcases List.mem_cons.mp hf with rfl | hf2
      · exact ⟨f, List.mem_cons_self f xs, rfl, rfl, rfl, rfl, Or.inl rfl⟩
      · rcases ih hf2 with ⟨g, hg, h1, h2, h3, h4, h5⟩
        exact ⟨g, List.mem_cons_of_mem x hg, h1, h2, h3, h4, h5⟩

theorem Inv_updatePriority {st : Engine} (h : Inv st) (i : Nat) (p : ℚ) :
    Inv (updatePriority st i p).2 := by
  obtain ⟨hn, hfl, hb⟩ := h
  rw [updatePriority]
  split
  · refine ⟨?_, ?_, ?_⟩
    · show (idsOf (setPriorityFirst i (max 0 (min 1 p)) st.items ++
        st.archivedItems)).Nodup
      rw [idsOf_append, idsOf_setPriorityFirst, ← idsOf_append]
      exact hn
    · intro f hf
      rcases mem_setPriorityFirst hf with ⟨g, hg, _, h2, _, _, _⟩
      rw [h2]
      exact hfl g hg
    · intro f hf
      rcases List.mem_append.mp hf with hf2 | hf2
      · rcases mem_setPriorityFirst hf2 with ⟨g, hg, h1, _, _, _, _⟩
        rw [h1]
        exact hb g (List.mem_append_left _ hg)
      · exact hb f (List.mem_append_right _ hf2)
  · exact ⟨hn, hfl, hb⟩

theorem removeFirst_perm (p : Frag → Bool) :
    ∀ {l : List Frag} {x : Frag} {rest : List Frag},
      removeFirst p l = some (x, rest) → (x :: rest).Perm l := by
  intro l
  induction l with
  | nil => intro x rest hx; exact Option.noConfusion hx
  | cons f fs ih =>
    intro x rest hx
    rw [removeFirst] at hx
    split at hx
    · rw [Option.some_inj] at hx
      rw [(Prod.mk.injEq _ _ _ _).mp hx |>.1,
        (Prod.mk.injEq _ _ _ _).mp hx |>.2]
    · match hrec : removeFirst p fs with
      | none => rw [hrec] at hx; simp at hx
      | some r =>
        rw [hrec] at hx
        simp only [Option.map_some', Option.some_inj] at hx
        have h1 : x = r.1 := ((Prod.mk.injEq _ _ _ _).mp hx).1.symm
        have h2 : rest = f :: r.2 := ((Prod.mk.injEq _ _ _ _).mp hx).2.symm
        subst h1
        subst h2
        have h5 : removeFirst p fs = some (r.1, r.2) := hrec
        have h6 := ih h5
        exact (List.Perm.swap f r.1 r.2).trans (h6.cons f)

theorem Inv_removeItem {st : Engine} (h : Inv st) (i : Nat) :
    Inv (removeItem st i).2 := by
  obtain ⟨hn, hfl, hb⟩ := h
  rw [removeItem]
  split
  · next x rest heq =>
    have hperm := removeFirst_perm _ heq
    refine ⟨?_, ?_, ?_⟩
    · show (idsOf (rest ++ st.archivedItems)).Nodup
      have hp2 : (idsOf ((x :: rest) ++ st.archivedItems)).Perm
          (idsOf (st.items ++ st.archivedItems)) := by
        rw [idsOf_append, idsOf_append]
        exact (hperm.map Frag.id).append_right _
      have := hp2.nodup_iff.mpr hn
      rw [idsOf_append] at this ⊢
      exact (List.nodup_cons.mp this).2
    · intro f hf
      exact hfl f (hperm.subset (List.mem_cons_of_mem x hf))
    · intro f hf
      rcases List.mem_append.mp hf with hf2 | hf2
      · exact hb f (List.mem_append_left _
          (hperm.subset (List.mem_cons_of_mem x hf2)))
      · exact hb f (List.mem_append_right _ hf2)
  · exact ⟨hn, hfl, hb⟩

theorem Inv_restoreItem {st : Engine} (h : Inv st) (i : Nat) :
    Inv (restoreItem st i).2 := by
  obtain ⟨hn, hfl, hb⟩ := h
  rw [restoreItem]
  split
  · next x rest heq =>
    have hperm := removeFirst_perm _ heq
    refine Inv_compress ⟨?_, ?_, ?_⟩
    · show (idsOf ((st.items ++ [{ x with archived := false }]) ++
        rest)).Nodup
      have hpm : (idsOf ((st.items ++ [{ x with archived := false }]) ++
          rest)).Perm (x.id :: (idsOf st.items ++ idsOf rest)) := by
        rw [idsOf_append, idsOf_append]
        refine (List.perm_append_comm.append_right _).trans ?_
        exact List.Perm.refl _
      have hp2 : (x.id :: (idsOf st.items ++ idsOf rest)).Perm
          (idsOf (st.items ++ st.archivedItems)) := by
        rw [idsOf_append]
        refine List.Perm.trans List.perm_middle.symm ?_
        exact List.Perm.append_left _ (hperm.map Frag.id)
      exact (hpm.trans hp2).nodup_iff.mpr hn
    · intro f hf
      rcases List.mem_append.mp hf with hf2 | hf2
      · exact hfl f hf2
      · rw [List.mem_singleton.mp hf2]
    · intro f hf
      show f.id ≤ st.idCounter
      rcases List.mem_append.mp hf with hf2 | hf2
      · rcases List.mem_append.mp hf2 with hf3 | hf3
        · exact hb f (List.mem_append_left _ hf3)
        · rw [List.mem_singleton.mp hf3]
          exact hb x (List.mem_append_right _
            (hperm.subset (List.mem_cons_self x rest)))
      · exact hb f (List.mem_append_right _
          (hperm.subset (List.mem_cons_of_mem x hf2)))
  · exact ⟨hn, hfl, hb⟩

/-- With clear resident flags, the keep-filter of `archiveLowPriority`
keeps exactly the fragments at or above the threshold, unchanged. -/
theorem alp_items_eq (th : ℚ) :
    ∀ l : List Frag, (∀ f ∈ l, f.archived = false) →
      ((l.map fun f =>
        if f.priority < th then { f with archived := true } else f).filter
          fun f => !f.archived) =
        l.filter fun f => !decide (f.priority < th) := by
  intro l
  induction l with
  | nil => intro _; rfl
  | cons x xs ih =>
    intro hfl
    rw [List.map_cons]
    by_cases hp : x.priority < th
    · rw [if_pos hp, List.filter_cons_of_neg (by simp),
        List.filter_cons_of_neg (by simp [hp])]
      exact ih fun f hf => hfl f (List.mem_cons_of_mem x hf)
    · rw [if_neg hp,
        List.filter_cons_of_pos (by simp [hfl x (List.mem_cons_self x xs)]),
        List.filter_cons_of_pos (by simp [hp]),
        ih fun f hf => hfl f (List.mem_cons_of_mem x hf)]

theorem Inv_archiveLowPriority {st : Engine} (h : Inv st) :
    Inv (archiveLowPriority st).2 := by
  obtain ⟨hn, hfl, hb⟩ := h
  rw [archiveLowPriority]
  refine ⟨?_, ?_, ?_⟩
  · show (idsOf (((st.items.map fun f =>
      if f.priority < st.archiveThreshold then { f with archived := true }
      else f).filter fun f => !f.archived) ++
        (st.archivedItems ++ ((st.items.filter fun f =>
          decide (f.priority < st.archiveThreshold)).map fun f =>
            { f with archived := true })))).Nodup
    rw [alp_items_eq _ _ hfl]
    rw [idsOf_append, idsOf_append, idsOf_map_set_archived]
    have hsplit : (idsOf (st.items.filter fun f =>
        decide (f.priority < st.archiveThreshold)) ++
        idsOf (st.items.filter fun f =>
          !decide (f.priority < st.archiveThreshold))).Perm
        (idsOf st.items) := by
      rw [← idsOf_append]
      exact (filter_not_filter_perm _ st.items).map Frag.id
    have hpm : (idsOf (st.items.filter fun f =>
        !decide (f.priority < st.archiveThreshold)) ++
        (idsOf st.archivedItems ++
          idsOf (st.items.filter fun f =>
            decide (f.priority < st.archiveThreshold)))).Perm
        (idsOf (st.items ++ st.archivedItems)) := by
      rw [idsOf_append]
      refine (List.Perm.append_left _ List.perm_append_comm).trans ?_
      rw [← List.append_assoc]
      exact (List.perm_append_comm.trans hsplit).append_right _
    exact hpm.nodup_iff.mpr hn
  · intro f hf
    rw [alp_items_eq _ _ hfl] at hf
    exact hfl f (List.mem_of_mem_filter hf)
  · intro f hf
    show f.id ≤ st.idCounter
    rcases List.mem_append.mp hf with hf2 | hf2
    · rw [alp_items_eq _ _ hfl] at hf2
      exact hb f (List.mem_append_left _ (List.mem_of_mem_filter hf2))
    · rcases List.mem_append.mp hf2 with hf3 | hf3
      · exact hb f (List.mem_append_right _ hf3)
      · rcases List.mem_map.mp hf3 with ⟨g, hg, rfl⟩
        exact hb g (List.mem_append_left _ (List.mem_of_mem_filter hg))

theorem Inv_mkEngine (o : EngineOptions) : Inv (mkEngine o) := by
  refine ⟨?_, ?_, ?_⟩ <;> simp [mkEngine, idsOf]

theorem Inv_step {st : Engine} (h : Inv st) (op : Op) : Inv (step st op) := by
  obtain ⟨hn, hfl, hb⟩ := h
  cases op with
  | addItem c p => exact Inv_addItem ⟨hn, hfl, hb⟩ c p
  | updatePriority i p => exact Inv_updatePriority ⟨hn, hfl, hb⟩ i p
  | removeItem i => exact Inv_removeItem ⟨hn, hfl, hb⟩ i
  | restoreItem i => exact Inv_restoreItem ⟨hn, hfl, hb⟩ i
  | archiveLowPriority => exact Inv_archiveLowPriority ⟨hn, hfl, hb⟩
  | compress => exact Inv_compress ⟨hn, hfl, hb⟩
  | clear =>
    exact ⟨List.nodup_nil, fun f hf => absurd hf (List.not_mem_nil f),
      fun f hf => absurd hf (List.not_mem_nil f)⟩
  | clearArchived =>
    refine ⟨?_, hfl, ?_⟩
    · show (idsOf (st.items ++ [])).Nodup
      rw [List.append_nil]
      rw [idsOf_append] at hn
      exact (List.nodup_append.mp hn).1
    · intro f hf
      have hf2 : f ∈ st.items ++ ([] : List Frag) := hf
      rw [List.append_nil] at hf2
      exact hb f (List.mem_append_left _ hf2)

theorem Inv_foldl : ∀ (ops : List Op) (st : Engine), Inv st →
    Inv (ops.foldl step st) := by
  intro ops
  induction ops with
  | nil => intro st h; exact h
  | cons op rest ih =>
    intro st h
    exact ih (step st op) (Inv_step h op)

theorem Inv_run (o : EngineOptions) (ops : List Op) : Inv (run o ops) :=
  Inv_foldl ops (mkEngine o) (Inv_mkEngine o)

theorem removeFirst_eq_none (p : Frag → Bool) :
    ∀ {l : List Frag}, (∀ f ∈ l, p f = false) → removeFirst p l = none := by
  intro l
  induction l with
  | nil => intro _; rfl
  | cons f fs ih =>
    intro h
    rw [removeFirst, if_neg (by rw [h f (List.mem_cons_self f fs)]; exact
      Bool.false_ne_true), ih fun g hg => h g (List.mem_cons_of_mem f hg)]
    rfl

theorem updatePriority_not_found {st : Engine} {i : Nat}
    (h : ∀ f ∈ st.items, f.id ≠ i) (p : ℚ) :
    updatePriority st i p = (false, st) := by
  rw [updatePriority, if_neg]
  intro hany
  rcases List.any_eq_true.mp hany with ⟨f, hf, hfi⟩
  exact h f hf (by simpa using hfi)

theorem removeItem_not_found {st : Engine} {i : Nat}
    (h : ∀ f ∈ st.items, f.id ≠ i) :
    removeItem st i = (false, st) := by
  rw [removeItem, removeFirst_eq_none _ fun f hf => by
    simpa using h f hf]

theorem restoreItem_not_found {st : Engine} {i : Nat}
    (h : ∀ f ∈ st.archivedItems, f.id ≠ i) :
    restoreItem st i = (false, st) := by
  rw [restoreItem, removeFirst_eq_none _ fun f hf => by
    simpa using h f hf]

/-- C4: in every state reachable by any sequence of the engine operations
`addItem`, `updatePriority`, `removeItem`, `restoreItem`,
`archiveLowPriority`, `compress`, `clear`, `clearArchived` from a freshly
constructed engine, no fragment identifier is simultaneously in the
resident collection and in the archive collection. -/
theorem C4_resident_archive_disjoint (o : EngineOptions) (ops : List Op)
    (i : Nat) (hi : i ∈ idsOf (run o ops).items) :
    i ∉ idsOf (run o ops).archivedItems := by
  have h := (Inv_run o ops).1
  rw [idsOf_append] at h
  exact fun ha => (List.disjoint_of_nodup_append h) hi ha

/-- Witness for C4 at a concrete run. -/
theorem C4_resident_archive_disjoint_witness :
    1 ∈ idsOf (run { maxSize := 10 }
        [Op.addItem ("aaaa") (mkRat 1 2)]).items ∧
      1 ∉ idsOf (run { maxSize := 10 }
        [Op.addItem ("aaaa") (mkRat 1 2)]).archivedItems :=
  ⟨by decide, C4_resident_archive_disjoint { maxSize := 10 }
    [Op.addItem ("aaaa") (mkRat 1 2)] 1 (by decide)⟩

/-- C7: `updatePriority` and `removeItem` on an identifier that is not
resident (unknown or archived), and `restoreItem` on an identifier that is
not archived (unknown or currently resident), return `false` and leave the
whole engine state (both collections included) unchanged; as total Lean
functions they can not throw. -/
theorem C7_not_found_reports_false (st : Engine) (i : Nat) (p : ℚ) :
    ((∀ f ∈ st.items, f.id ≠ i) → updatePriority st i p = (false, st)) ∧
      ((∀ f ∈ st.items, f.id ≠ i) → removeItem st i = (false, st)) ∧
      ((∀ f ∈ st.archivedItems, f.id ≠ i) →
        restoreItem st i = (false, st)) :=
  ⟨fun h => updatePriority_not_found h p,
    fun h => removeItem_not_found h,
    fun h => restoreItem_not_found h⟩

/-- Witness for C7: state with resident id 1 and archived id 2; the id 2 is
not resident (so update/remove fail) and the id 1 is not archived (so
restore fails), each leaving the state unchanged. -/
theorem C7_not_found_reports_false_witness :
    ((∀ f ∈ (run { maxSize := 2 }
        [Op.addItem ("bbbbbbbbbbbbbbbbbbbb") (mkRat 1 2),
         Op.addItem ("aaaa") (mkRat 1 2)]).items, f.id ≠ 1) ∧
      (∀ f ∈ (run { maxSize := 2 }
        [Op.addItem ("bbbbbbbbbbbbbbbbbbbb") (mkRat 1 2),
         Op.addItem ("aaaa") (mkRat 1 2)]).archivedItems, f.id ≠ 2)) ∧
      updatePriority (run { maxSize := 2 }
        [Op.addItem ("bbbbbbbbbbbbbbbbbbbb") (mkRat 1 2),
         Op.addItem ("aaaa") (mkRat 1 2)]) 1 (mkRat 3 4) =
        (false, run { maxSize := 2 }
          [Op.addItem ("bbbbbbbbbbbbbbbbbbbb") (mkRat 1 2),
           Op.addItem ("aaaa") (mkRat 1 2)]) ∧
      removeItem (run { maxSize := 2 }
        [Op.addItem ("bbbbbbbbbbbbbbbbbbbb") (mkRat 1 2),
         Op.addItem ("aaaa") (mkRat 1 2)]) 1 =
        (false, run { maxSize := 2 }
          [Op.addItem ("bbbbbbbbbbbbbbbbbbbb") (mkRat 1 2),
           Op.addItem ("aaaa") (mkRat 1 2)]) ∧
      restoreItem (run { maxSize := 2 }
        [Op.addItem ("bbbbbbbbbbbbbbbbbbbb") (mkRat 1 2),
         Op.addItem ("aaaa") (mkRat 1 2)]) 2 =
        (false, run { maxSize := 2 }
          [Op.addItem ("bbbbbbbbbbbbbbbbbbbb") (mkRat 1 2),
           Op.addItem ("aaaa") (mkRat 1 2)]) :=
  ⟨⟨by decide, by decide⟩,
    (C7_not_found_reports_false _ 1 (mkRat 3 4)).1 (by decide),
    (C7_not_found_reports_false _ 1 (mkRat 3 4)).2.1 (by decide),
    (C7_not_found_reports_false _ 2 (mkRat 3 4)).2.2 (by decide)⟩

/-- C10: a successful `restoreItem` (returning `true`) does not guarantee
residence: here the restored fragment is immediately re-archived by the
`compress` that `restoreItem` triggers, so after the `true` return the
fragment is again in the archive collection and not resident. -/
theorem C10_restore_can_rearchive :
    (restoreItem (run { maxSize := 2 }
        [Op.addItem ("aaaaaaaaaaaaaaaaaaaa") (mkRat 1 2)]) 1).1 = true ∧
      idsOf (restoreItem (run { maxSize := 2 }
        [Op.addItem ("aaaaaaaaaaaaaaaaaaaa") (mkRat 1 2)]) 1).2.items = [] ∧
      idsOf (restoreItem (run { maxSize := 2 }
        [Op.addItem ("aaaaaaaaaaaaaaaaaaaa") (mkRat 1 2)]) 1).2.archivedItems
        = [1] := by
  decide

/-- C6 (code bug): `summarizeArchived` sorts `this.archivedItems` in place,
so it mutates the archive collection's order: on an archive holding ids
[1, 2] in that order (older first), the call reorders it to [2, 1]. -/
theorem C6_summarize_mutates_archive_order :
    idsOf (run { maxSize := 2 }
        [Op.addItem ("aaaaaaaaaaaaaaaaaaaa") (mkRat 1 2),
         Op.addItem ("bbbbbbbbbbbbbbbbbbbb") (mkRat 1 2)]).archivedItems
        = [1, 2] ∧
      idsOf (summarizeArchived (run { maxSize := 2 }
        [Op.addItem ("aaaaaaaaaaaaaaaaaaaa") (mkRat 1 2),
         Op.addItem ("bbbbbbbbbbbbbbbbbbbb") (mkRat 1 2)]) 5).2.archivedItems
        = [2, 1] := by
  decide

/-- Operation wellformedness for the amended C5: `addItem` arguments are
restricted to [0,1]; `updatePriority` arguments stay unrestricted because
the code clamps them. -/
def goodOp : Op → Bool
  | .addItem _ p => decide (0 ≤ p ∧ p ≤ 1)
  | _ => true

/-- All stored priorities lie in [0,1]. -/
def PriOK (st : Engine) : Prop :=
  ∀ f ∈ st.items ++ st.archivedItems, 0 ≤ f.priority ∧ f.priority ≤ 1

theorem PriOK_compress {st : Engine} (h : PriOK st) : PriOK (compress st) := by
  intro f hf
  rcases List.mem_append.mp hf with hf2 | hf2
  · exact h f (List.mem_append_left _ (mem_compress_items hf2))
  · rcases mem_compress_arch hf2 with h3 | ⟨r, hr, rfl⟩
    · exact h f (List.mem_append_right _ h3)
    · exact h r (List.mem_append_left _ hr)

theorem PriOK_step {st : Engine} (h : PriOK st) {op : Op}
    (hop : goodOp op = true) : PriOK (step st op) := by
  cases op with
  | addItem c p =>
    refine PriOK_compress ?_
    intro f hf
    rcases List.mem_append.mp hf with hf2 | hf2
    · rcases List.mem_append.mp hf2 with hf3 | hf3
      · exact h f (List.mem_append_left _ hf3)
      · rw [List.mem_singleton.mp hf3]
        exact of_decide_eq_true hop
    · exact h f (List.mem_append_right _ hf2)
  | updatePriority i p =>
    show PriOK (updatePriority st i p).2
    rw [updatePriority]
    split
    · intro f hf
      rcases List.mem_append.mp hf with hf2 | hf2
      · rcases mem_setPriorityFirst hf2 with ⟨g, hg, _, _, _, _, h5⟩
        rcases h5 with h5 | h5
        · rw [h5]
          exact (h g (List.mem_append_left _ hg))
        · rw [h5]
          constructor
          · exact le_max_left 0 _
          · exact max_le zero_le_one (min_le_left 1 p)
      · exact h f (List.mem_append_right _ hf2)
    · exact h
  | removeItem i =>
    show PriOK (removeItem st i).2
    rw [removeItem]
    split
    · next x rest heq =>
      have hperm := removeFirst_perm _ heq
      intro f hf
      rcases List.mem_append.mp hf with hf2 | hf2
      · exact h f (List.mem_append_left _
          (hperm.subset (List.mem_cons_of_mem x hf2)))
      · exact h f (List.mem_append_right _ hf2)
    · exact h
  | restoreItem i =>
    show PriOK (restoreItem st i).2
    rw [restoreItem]
    split
    · next x rest heq =>
      have hperm := removeFirst_perm _ heq
      refine PriOK_compress ?_
      intro f hf
      rcases List.mem_append.mp hf with hf2 | hf2
      · rcases List.mem_append.mp hf2 with hf3 | hf3
        · exact h f (List.mem_append_left _ hf3)
        · rw [List.mem_singleton.mp hf3]
          exact h x (List.mem_append_right _
            (hperm.subset (List.mem_cons_self x rest)))
      · exact h f (List.mem_append_right _
          (hperm.subset (List.mem_cons_of_mem x hf2)))
    · exact h
  | archiveLowPriority =>
    show PriOK (archiveLowPriority st).2
    rw [archiveLowPriority]
    intro f hf
    rcases List.mem_append.mp hf with hf2 | hf2
    · rcases List.mem_map.mp (List.mem_of_mem_filter hf2) with ⟨g, hg, he⟩
      have : f.priority = g.priority := by
        rw [← he]
        split <;> rfl
      rw [this]
      exact h g (List.mem_append_left _ hg)
    · rcases List.mem_append.mp hf2 with hf3 | hf3
      · exact h f (List.mem_append_right _ hf3)
      · rcases List.mem_map.mp hf3 with ⟨g, hg, rfl⟩
        exact h g (List.mem_append_left _ (List.mem_of_mem_filter hg))
  | compress => exact PriOK_compress h
  | clear => intro f hf; exact absurd hf (List.not_mem_nil f)
  | clearArchived =>
    intro f hf
    have hf2 : f ∈ st.items ++ ([] : List Frag) := hf
    rw [List.append_nil] at hf2
    exact h f (List.mem_append_left _ hf2)

theorem PriOK_foldl : ∀ (ops : List Op) (st : Engine), PriOK st →
    (∀ op ∈ ops, goodOp op = true) → PriOK (ops.foldl step st) := by
  intro ops
  induction ops with
  | nil => intro st h _; exact h
  | cons op rest ih =>
    intro st h hg
    exact ih (step st op)
      (PriOK_step h (hg op (List.mem_cons_self op rest)))
      fun o2 ho2 => hg o2 (List.mem_cons_of_mem op ho2)

/-- C5 (amended): `updatePriority` clamps its argument into [0,1], but
`addItem` stores its argument unclamped; provided every `addItem` in the
trace receives a priority already in [0,1], every fragment in every
reachable state (resident or archived) has its priority in [0,1] — with
`updatePriority` arguments left completely unrestricted. -/
theorem C5_priorities_in_range (o : EngineOptions) (ops : List Op)
    (h : ∀ op ∈ ops, goodOp op = true) :
    ∀ f ∈ (run o ops).items ++ (run o ops).archivedItems,
      0 ≤ f.priority ∧ f.priority ≤ 1 :=
  PriOK_foldl ops (mkEngine o)
    (fun f hf => absurd hf (List.not_mem_nil f)) h

/-- Counterexample for C5 as stated: `addItem` does not clamp, so adding a
fragment with priority 3/2 stores the out-of-range priority 3/2. -/
theorem C5_counterexample :
    (run { maxSize := 10 }
        [Op.addItem ("xxxx") (mkRat 3 2)]).items.map Frag.priority
        = [mkRat 3 2] ∧
      ¬ ((mkRat 3 2 : ℚ) ≤ 1) := by
  decide

/-- Witness for C5: a trace whose `addItem` priorities are in range and
whose `updatePriority` receives the out-of-range 3/2 (clamped to 1). -/
theorem C5_priorities_in_range_witness :
    (∀ op ∈ [Op.addItem ("aaaa") (mkRat 1 2),
        Op.updatePriority 1 (mkRat 3 2)], goodOp op = true) ∧
      ∀ f ∈ (run { maxSize := 10 }
          [Op.addItem ("aaaa") (mkRat 1 2),
           Op.updatePriority 1 (mkRat 3 2)]).items ++
        (run { maxSize := 10 }
          [Op.addItem ("aaaa") (mkRat 1 2),
           Op.updatePriority 1 (mkRat 3 2)]).archivedItems,
        0 ≤ f.priority ∧ f.priority ≤ 1 :=
  ⟨by decide, C5_priorities_in_range { maxSize := 10 }
    [Op.addItem ("aaaa") (mkRat 1 2), Op.updatePriority 1 (mkRat 3 2)]
    (by decide)⟩

theorem compressPinning_true {st : Engine}
    (hpres : st.preserveInstructionsAtStart = true)
    (hne : st.instructionsContent ≠ "") : compressPinning st = true := by
  rw [compressPinning, hpres, Bool.true_and, Bool.not_eq_true']
  exact beq_eq_false_iff_ne.mpr hne

/-- C1 (amended): when the pinned-instructions mode is enabled AND the
pinned text is non-empty, every resident fragment with priority > 0.9
survives `compress` and every fragment newly moved to the archive has
priority ≤ 0.9. (When pinning is disabled or the pinned text is empty,
critical fragments compete as regular fragments and can be archived — see
the counterexample.) -/
theorem C1_critical_kept_when_pinned (st : Engine) (f : Frag)
    (hpres : st.preserveInstructionsAtStart = true)
    (hne : st.instructionsContent ≠ "")
    (hf : f ∈ st.items) (hcrit : isCritical f) :
    f ∈ (compress st).items ∧
      ∀ g ∈ (compress st).archivedItems,
        g ∈ st.archivedItems ∨ g.priority ≤ mkRat 9 10 := by
  have hpin := compressPinning_true hpres hne
  constructor
  · by_cases hle : (currentSize st : Int) ≤ st.maxSize
    · rw [compress_of_le hle]
      exact hf
    · rw [compress_items_of_gt hle, List.mem_insertionSort]
      exact List.mem_append_left _ (mem_compressInstructions_of hpin hf hcrit)
  · intro g hg
    rw [compress_arch_eq] at hg
    rcases List.mem_append.mp hg with h2 | h2
    · exact Or.inl h2
    · rcases mem_newlyArchived h2 with ⟨r, _, rfl, hnc⟩
      right
      show r.priority ≤ mkRat 9 10
      have := hnc hpin
      rw [isCritical] at this
      exact not_lt.mp this

/-- Counterexample for C1 as stated: with the pinned text empty (pinning
mode on by default but the text defaulting to the empty string), a critical
fragment (priority 19/20 > 0.9) of size 5 over capacity 2 is archived by
the compaction that `addItem` triggers. -/
theorem C1_counterexample :
    isCritical ⟨1, "aaaaaaaaaaaaaaaaaaaa", mkRat 19 20, 1, false⟩ ∧
      (run { maxSize := 2 }
        [Op.addItem ("aaaaaaaaaaaaaaaaaaaa") (mkRat 19 20)]).items = [] ∧
      (run { maxSize := 2 }
        [Op.addItem ("aaaaaaaaaaaaaaaaaaaa")
          (mkRat 19 20)]).archivedItems.map
        (fun g => (g.id, g.priority)) = [(1, mkRat 19 20)] := by
  decide

/-- Witness for C1 (amended) at a pinned engine over capacity. -/
theorem C1_critical_kept_when_pinned_witness :
    ((run { maxSize := 2, instructionsContent := "pin" }
        [Op.addItem ("aaaaaaaaaaaaaaaaaaaa")
          (mkRat 19 20)]).preserveInstructionsAtStart = true ∧
      (run { maxSize := 2, instructionsContent := "pin" }
        [Op.addItem ("aaaaaaaaaaaaaaaaaaaa")
          (mkRat 19 20)]).instructionsContent ≠ "" ∧
      (⟨1, "aaaaaaaaaaaaaaaaaaaa", mkRat 19 20, 1, false⟩ : Frag) ∈
        (run { maxSize := 2, instructionsContent := "pin" }
          [Op.addItem ("aaaaaaaaaaaaaaaaaaaa") (mkRat 19 20)]).items) ∧
      (⟨1, "aaaaaaaaaaaaaaaaaaaa", mkRat 19 20, 1, false⟩ : Frag) ∈
        (compress (run { maxSize := 2, instructionsContent := "pin" }
          [Op.addItem ("aaaaaaaaaaaaaaaaaaaa") (mkRat 19 20)])).items :=
  ⟨⟨by decide, by decide, by decide⟩,
    (C1_critical_kept_when_pinned _ _ (by decide) (by decide) (by decide)
      (by decide)).1⟩

/-- C2 (amended): in `compress`, the space available for regular fragments
is the capacity minus the total estimated size of the CRITICAL resident
fragments (priority > 0.9), not minus the size of the configured pinned
instructions text; the greedy pass keeps regular fragments of total size at
most `max 0 available`; and the whole outcome of `compress` is independent
of the pinned text's content and size (only its non-emptiness matters). -/
theorem C2_available_ignores_pinned_text (st : Engine) (c' : String)
    (hpres : st.preserveInstructionsAtStart = true)
    (hne : st.instructionsContent ≠ "") (hne' : c' ≠ "") :
    compressAvailable st =
        st.maxSize -
          sizesSum (st.items.filter fun f => decide (isCritical f)) ∧
      (sizesSum (compressPacked st).1 : Int) ≤
        max 0 (compressAvailable st) ∧
      (compress { st with instructionsContent := c' }).items =
        (compress st).items ∧
      (compress { st with instructionsContent := c' }).archivedItems =
        (compress st).archivedItems := by
  have hpin := compressPinning_true hpres hne
  have hpin' : compressPinning { st with instructionsContent := c' } =
      true := by
    show (st.preserveInstructionsAtStart && !(c' == "")) = true
    rw [hpres, Bool.true_and, Bool.not_eq_true']
    exact beq_eq_false_iff_ne.mpr hne'
  have h_sorted : compressSorted { st with instructionsContent := c' } =
      compressSorted st := rfl
  have h_instr : compressInstructions { st with instructionsContent := c' } =
      compressInstructions st := by
    rw [compressInstructions, compressInstructions, if_pos hpin,
      if_pos hpin', h_sorted]
  have h_reg : compressRegular { st with instructionsContent := c' } =
      compressRegular st := by
    rw [compressRegular, compressRegular, if_pos hpin, if_pos hpin',
      h_sorted]
  have h_avail : compressAvailable { st with instructionsContent := c' } =
      compressAvailable st := by
    rw [compressAvailable, compressAvailable, h_instr]
  have h_packed : compressPacked { st with instructionsContent := c' } =
      compressPacked st := by
    rw [compressPacked, compressPacked, h_avail, h_reg]
  refine ⟨?_, ?_, ?_, ?_⟩
  · rw [compressAvailable, compressInstructions, if_pos hpin]
    have hsz : sizesSum ((compressSorted st).filter fun f =>
        decide (isCritical f)) =
        sizesSum (st.items.filter fun f => decide (isCritical f)) := by
      rw [sizesSum, sizesSum]
      exact List.Perm.sum_eq (List.Perm.map _
        (List.Perm.filter _ (compressSorted_perm st)))
    rw [hsz]
  · have h2 := packLoop_kept_sum (compressAvailable st)
      (compressRegular st) 0
    rw [Nat.cast_zero, zero_add, max_comm] at h2
    exact h2
  · by_cases hle : (currentSize st : Int) ≤ st.maxSize
    · have hle2 : (currentSize { st with instructionsContent := c' } : Int) ≤
          { st with instructionsContent := c' }.maxSize := hle
      rw [compress_of_le hle2, compress_of_le hle]
    · have hle2 : ¬ (currentSize { st with instructionsContent := c' } :
          Int) ≤ { st with instructionsContent := c' }.maxSize := hle
      rw [compress_items_of_gt hle2, compress_items_of_gt hle,
        h_instr, h_packed]
  · by_cases hle : (currentSize st : Int) ≤ st.maxSize
    · have hle2 : (currentSize { st with instructionsContent := c' } : Int) ≤
          { st with instructionsContent := c' }.maxSize := hle
      rw [compress_of_le hle2, compress_of_le hle]
    · have hle2 : ¬ (currentSize { st with instructionsContent := c' } :
          Int) ≤ { st with instructionsContent := c' }.maxSize := hle
      rw [compress_arch_eq, compress_arch_eq, newlyArchived, newlyArchived,
        if_neg hle2, if_neg hle, h_packed]

/-- Counterexample for C2 as stated: pinned text of estimated size 5 with
capacity 10; after an over-capacity compaction a regular fragment of size 6
stays resident, although capacity minus the pinned text size is 10 - 5 = 5
< 6, so the pinned text size is not what is subtracted from the capacity
(the critical fragments total, here 0, is). -/
theorem C2_counterexample :
    idsOf (run { maxSize := 10, instructionsContent := "pppppppppppppppppppp" } [Op.addItem ("aaaaaaaaaaaaaaaaaaaaaaaa") (mkRat 4 5), Op.addItem ("bbbbbbbbbbbbbbbbbbbbbbbb") (mkRat 7 10)]).items = [1] ∧
      idsOf (run { maxSize := 10, instructionsContent := "pppppppppppppppppppp" } [Op.addItem ("aaaaaaaaaaaaaaaaaaaaaaaa") (mkRat 4 5), Op.addItem ("bbbbbbbbbbbbbbbbbbbbbbbb") (mkRat 7 10)]).archivedItems = [2] ∧
      sizesSum (run { maxSize := 10, instructionsContent := "pppppppppppppppppppp" } [Op.addItem ("aaaaaaaaaaaaaaaaaaaaaaaa") (mkRat 4 5), Op.addItem ("bbbbbbbbbbbbbbbbbbbbbbbb") (mkRat 7 10)]).items = 6 ∧
      est (run { maxSize := 10, instructionsContent := "pppppppppppppppppppp" } [Op.addItem ("aaaaaaaaaaaaaaaaaaaaaaaa") (mkRat 4 5), Op.addItem ("bbbbbbbbbbbbbbbbbbbbbbbb") (mkRat 7 10)]).instructionsContent = 5 := by
  decide

/-- Witness for C2 (amended) at a pinned engine. -/
theorem C2_available_ignores_pinned_text_witness :
    ((run { maxSize := 10, instructionsContent := "pin" }
        [Op.addItem ("aaaaaaaaaaaaaaaaaaaaaaaa")
          (mkRat 4 5)]).preserveInstructionsAtStart = true ∧
      (run { maxSize := 10, instructionsContent := "pin" }
        [Op.addItem ("aaaaaaaaaaaaaaaaaaaaaaaa")
          (mkRat 4 5)]).instructionsContent ≠ "" ∧
      ("q" : String) ≠ "") ∧
      compressAvailable (run { maxSize := 10, instructionsContent := "pin" }
        [Op.addItem ("aaaaaaaaaaaaaaaaaaaaaaaa") (mkRat 4 5)]) =
        (run { maxSize := 10, instructionsContent := "pin" }
          [Op.addItem ("aaaaaaaaaaaaaaaaaaaaaaaa") (mkRat 4 5)]).maxSize -
          sizesSum ((run { maxSize := 10, instructionsContent := "pin" }
            [Op.addItem ("aaaaaaaaaaaaaaaaaaaaaaaa")
              (mkRat 4 5)]).items.filter fun f => decide (isCritical f)) :=
  ⟨⟨by decide, by decide, by decide⟩,
    (C2_available_ignores_pinned_text _ ("q") (by decide) (by decide)
      (by decide)).1⟩

theorem compressSorted_pairwise (st : Engine) :
    (compressSorted st).Pairwise priGe :=
  List.sorted_insertionSort priGe st.items

theorem compressRegular_pairwise (st : Engine) :
    (compressRegular st).Pairwise priGe := by
  have h := compressSorted_pairwise st
  rw [compressRegular]
  split
  · exact List.Pairwise.sublist (List.filter_sublist _) h
  · exact h

theorem compressRegular_nodup {st : Engine}
    (hn : (idsOf st.items).Nodup) : (idsOf (compressRegular st)).Nodup := by
  have h1 : (idsOf (compressSorted st)).Nodup :=
    ((compressSorted_perm st).map Frag.id).nodup_iff.mpr hn
  rw [compressRegular]
  split
  · exact List.Nodup.sublist ((List.filter_sublist _).map Frag.id) h1
  · exact h1

/-- C8: priority monotonicity of compaction. For two regular (non-critical)
resident fragments with `b.priority < a.priority` and equal estimated size,
if `b` is resident after `compress` then so is `a`. -/
theorem C8_priority_monotonic (st : Engine) (a b : Frag)
    (hn : (idsOf st.items).Nodup) (ha : a ∈ st.items) (hb : b ∈ st.items)
    (hpri : b.priority < a.priority) (hreg : a.priority ≤ mkRat 9 10)
    (hest : est a.content = est b.content)
    (hkept : b ∈ (compress st).items) : a ∈ (compress st).items := by
  by_cases hle : (currentSize st : Int) ≤ st.maxSize
  · rw [compress_of_le hle]
    exact ha
  · rw [compress_items_of_gt hle] at hkept ⊢
    rw [List.mem_insertionSort] at hkept ⊢
    have hanc : ¬ isCritical a := by
      rw [isCritical]
      exact not_lt.mpr hreg
    have hbnc : ¬ isCritical b := by
      rw [isCritical]
      exact not_lt.mpr (le_of_lt (lt_of_lt_of_le hpri hreg))
    rcases List.mem_append.mp hkept with h2 | h2
    · exact absurd (mem_compressInstructions h2).2 hbnc
    · have haR : a ∈ compressRegular st := mem_compressRegular_of ha hanc
      have hbR : b ∈ compressRegular st := mem_compressRegular_of hb hbnc
      have hne2 : a ≠ b := by
        intro he
        rw [he] at hpri
        exact lt_irrefl _ hpri
      have hsub : [a, b].Sublist (compressRegular st) :=
        pair_sublist_of_pairwise (compressRegular_pairwise st) haR hbR
          (by rw [priGe]; exact not_le.mpr hpri) hne2
      exact List.mem_append_right _
        (packLoop_mono _ _ 0 hsub (compressRegular_nodup hn) hest h2)

/-- Witness for C8 at a concrete two-fragment engine. -/
theorem C8_priority_monotonic_witness :
    ((idsOf (run { maxSize := 40 } [Op.addItem ("aaaaaaaa") (mkRat 4 5), Op.addItem ("bbbbbbbb") (mkRat 3 5)]).items).Nodup ∧
      (⟨1, "aaaaaaaa", mkRat 4 5, 1, false⟩ : Frag) ∈ (run { maxSize := 40 } [Op.addItem ("aaaaaaaa") (mkRat 4 5), Op.addItem ("bbbbbbbb") (mkRat 3 5)]).items ∧
      (⟨2, "bbbbbbbb", mkRat 3 5, 2, false⟩ : Frag) ∈ (compress (run { maxSize := 40 } [Op.addItem ("aaaaaaaa") (mkRat 4 5), Op.addItem ("bbbbbbbb") (mkRat 3 5)])).items) ∧
      (⟨1, "aaaaaaaa", mkRat 4 5, 1, false⟩ : Frag) ∈ (compress (run { maxSize := 40 } [Op.addItem ("aaaaaaaa") (mkRat 4 5), Op.addItem ("bbbbbbbb") (mkRat 3 5)])).items :=
  ⟨⟨by decide, by decide, by decide⟩,
    C8_priority_monotonic (run { maxSize := 40 } [Op.addItem ("aaaaaaaa") (mkRat 4 5), Op.addItem ("bbbbbbbb") (mkRat 3 5)])
      ⟨1, "aaaaaaaa", mkRat 4 5, 1, false⟩ ⟨2, "bbbbbbbb", mkRat 3 5, 2, false⟩ (by decide) (by decide)
      (by decide) (by decide) (by decide) (by decide) (by decide)⟩

/-- C9 (amended): the stable tie-break holds with respect to the CURRENT
resident-list order: for two regular fragments occurring as `a` before `b`
in the resident list, with equal priority and equal size, if `b` is
resident after `compress` then so is `a`. The current order coincides with
insertion order only until an over-capacity compaction reorders residents
by recency; after that, a more recently inserted equal-priority fragment
precedes and can be kept instead of an older one (see the
counterexample). -/
theorem C9_stable_tiebreak_current_order (st : Engine) (a b : Frag)
    (hn : (idsOf st.items).Nodup) (hsub : [a, b].Sublist st.items)
    (hpri : a.priority = b.priority) (hreg : a.priority ≤ mkRat 9 10)
    (hest : est a.content = est b.content)
    (hkept : b ∈ (compress st).items) : a ∈ (compress st).items := by
  by_cases hle : (currentSize st : Int) ≤ st.maxSize
  · rw [compress_of_le hle]
    exact hsub.subset (List.mem_cons_self a [b])
  · rw [compress_items_of_gt hle] at hkept ⊢
    rw [List.mem_insertionSort] at hkept ⊢
    have hanc : ¬ isCritical a := by
      rw [isCritical]
      exact not_lt.mpr hreg
    have hbnc : ¬ isCritical b := by
      rw [isCritical, ← hpri]
      exact not_lt.mpr hreg
    rcases List.mem_append.mp hkept with h2 | h2
    · exact absurd (mem_compressInstructions h2).2 hbnc
    · have hsrt : [a, b].Sublist (compressSorted st) :=
        List.pair_sublist_insertionSort (le_of_eq hpri.symm) hsub
      have hRsub : [a, b].Sublist (compressRegular st) := by
        rw [compressRegular]
        split
        · have h3 := List.Sublist.filter
            (fun f => !decide (isCritical f)) hsrt
          have e : List.filter (fun f => !decide (isCritical f)) [a, b] =
              [a, b] := by
            rw [List.filter_cons_of_pos (by simpa using hanc),
              List.filter_cons_of_pos (by simpa using hbnc),
              List.filter_nil]
          rw [e] at h3
          exact h3
        · exact hsrt
      exact List.mem_append_right _
        (packLoop_mono _ _ 0 hRsub (compressRegular_nodup hn) hest h2)

/-- Counterexample for C9 as stated: X then Y inserted with equal priority
1/2 and equal size 2; an intermediate over-capacity compaction reorders the
residents by recency to [Y, X]; the next compaction can keep exactly one of
them and keeps Y (inserted second), archiving X — the claim predicted X. -/
theorem C9_counterexample :
    (run { maxSize := 4 } [Op.addItem ("xxxxxxxx") (mkRat 1 2), Op.addItem ("yyyyyyyy") (mkRat 1 2), Op.addItem ("zzzzzzzzzzzzzzzzzzzzzzzzzzzzzzzzzzzzzzzz") (mkRat 1 10), Op.addItem ("wwwwwwww") (mkRat 9 10)]).items.map
        (fun f => (f.id, f.priority, est f.content)) =
        [(4, mkRat 9 10, 2), (2, mkRat 1 2, 2)] ∧
      (run { maxSize := 4 } [Op.addItem ("xxxxxxxx") (mkRat 1 2), Op.addItem ("yyyyyyyy") (mkRat 1 2), Op.addItem ("zzzzzzzzzzzzzzzzzzzzzzzzzzzzzzzzzzzzzzzz") (mkRat 1 10), Op.addItem ("wwwwwwww") (mkRat 9 10)]).archivedItems.map
        (fun f => (f.id, f.priority, est f.content)) =
        [(3, mkRat 1 10, 10), (1, mkRat 1 2, 2)] := by
  decide

/-- Witness for C9 (amended) at a concrete two-fragment engine. -/
theorem C9_stable_tiebreak_current_order_witness :
    ((idsOf (run { maxSize := 40 } [Op.addItem ("xxxxxxxx") (mkRat 1 2), Op.addItem ("yyyyyyyy") (mkRat 1 2)]).items).Nodup ∧
      [(⟨1, "xxxxxxxx", mkRat 1 2, 1, false⟩ : Frag), ⟨2, "yyyyyyyy", mkRat 1 2, 2, false⟩].Sublist (run { maxSize := 40 } [Op.addItem ("xxxxxxxx") (mkRat 1 2), Op.addItem ("yyyyyyyy") (mkRat 1 2)]).items ∧
      (⟨2, "yyyyyyyy", mkRat 1 2, 2, false⟩ : Frag) ∈ (compress (run { maxSize := 40 } [Op.addItem ("xxxxxxxx") (mkRat 1 2), Op.addItem ("yyyyyyyy") (mkRat 1 2)])).items) ∧
      (⟨1, "xxxxxxxx", mkRat 1 2, 1, false⟩ : Frag) ∈ (compress (run { maxSize := 40 } [Op.addItem ("xxxxxxxx") (mkRat 1 2), Op.addItem ("yyyyyyyy") (mkRat 1 2)])).items :=
  ⟨⟨by decide, by decide, by decide⟩,
    C9_stable_tiebreak_current_order (run { maxSize := 40 } [Op.addItem ("xxxxxxxx") (mkRat 1 2), Op.addItem ("yyyyyyyy") (mkRat 1 2)])
      ⟨1, "xxxxxxxx", mkRat 1 2, 1, false⟩ ⟨2, "yyyyyyyy", mkRat 1 2, 2, false⟩ (by decide) (by decide)
      (by decide) (by decide) (by decide) (by decide)⟩

/-- C3 (amended): a regular fragment is archived at the moment it fails to
fit, and among LATER fragments in sort order only those at least as large
are necessarily rejected too: if `f` is newly archived by `compress` and
`g` is a resident fragment with strictly lower priority (hence after `f` in
sort order) and size at least `f`'s, then `g` is newly archived as well.
Strictly smaller later fragments can still be kept — the pass continues
past a rejection and backfills (see the counterexample). -/
theorem C3_rejection_monotone_in_size (st : Engine) (f g : Frag)
    (hn : (idsOf st.items).Nodup) (hg : g ∈ st.items)
    (hpri : g.priority < f.priority) (hest : est f.content ≤ est g.content)
    (harch : { f with archived := true } ∈ newlyArchived st) :
    { g with archived := true } ∈ newlyArchived st := by
  rw [newlyArchived] at harch ⊢
  split at harch
  · exact absurd harch (List.not_mem_nil _)
  · next hle =>
    rw [if_neg hle]
    rcases List.mem_map.mp harch with ⟨r, hr, he⟩
    have hrreg : r ∈ compressRegular st :=
      (packLoop_rej_sublist _ _ _).subset hr
    have hrpri : r.priority = f.priority := by
      have h4 := congrArg Frag.priority he
      exact h4
    have hrest : est r.content = est f.content := by
      have h4 := congrArg (fun x => est x.content) he
      exact h4
    have hgreg : g ∈ compressRegular st := by
      rw [compressRegular]
      split
      · next hpin =>
        have hrnc : ¬ isCritical r :=
          mem_compressRegular_not_crit hpin hrreg
        refine List.mem_filter.mpr
          ⟨(compressSorted_perm st).mem_iff.mpr hg, ?_⟩
        have hgnc : ¬ isCritical g := by
          rw [isCritical] at hrnc ⊢
          rw [hrpri] at hrnc
          exact not_lt.mpr (le_of_lt (lt_of_lt_of_le hpri (not_lt.mp hrnc)))
        simpa using hgnc
      · exact (compressSorted_perm st).mem_iff.mpr hg
    have hne2 : r ≠ g := by
      intro he2
      rw [he2] at hrpri
      rw [hrpri] at hpri
      exact lt_irrefl _ hpri
    have hsub : [r, g].Sublist (compressRegular st) :=
      pair_sublist_of_pairwise (compressRegular_pairwise st) hrreg hgreg
        (by rw [priGe, hrpri]; exact not_le.mpr hpri) hne2
    have hgrej : g ∈ (compressPacked st).2 :=
      packLoop_reject_mono _ _ 0 hsub (compressRegular_nodup hn)
        (by rw [hrest]; exact hest) hr
    exact List.mem_map_of_mem _ hgrej

/-- Counterexample for C3 as stated: priorities 4/5 > 7/10 > 3/5 with sizes
2, 3, 2 and capacity 4: the greedy pass keeps the first (size 2), rejects
the second (size 3 does not fit), then KEEPS the third (size 2 fits in the
leftover space) although it comes after the rejected fragment in sort
order — the pass does backfill smaller later-sorted fragments. -/
theorem C3_counterexample :
    (run { maxSize := 4 } [Op.addItem ("aaaaaaaa") (mkRat 4 5), Op.addItem ("cccccccc") (mkRat 3 5), Op.addItem ("bbbbbbbbbbbb") (mkRat 7 10)]).items.map
        (fun f => (f.id, f.priority, est f.content)) =
        [(2, mkRat 3 5, 2), (1, mkRat 4 5, 2)] ∧
      (run { maxSize := 4 } [Op.addItem ("aaaaaaaa") (mkRat 4 5), Op.addItem ("cccccccc") (mkRat 3 5), Op.addItem ("bbbbbbbbbbbb") (mkRat 7 10)]).archivedItems.map
        (fun f => (f.id, f.priority, est f.content)) =
        [(3, mkRat 7 10, 3)] := by
  decide

/-- Witness for C3 (amended) at a concrete over-capacity engine state. -/
theorem C3_rejection_monotone_in_size_witness :
    ((idsOf (⟨4, true, "", mkRat 3 10, [⟨1, "aaaaaaaa", mkRat 4 5, 1, false⟩, ⟨2, "bbbbbbbbbbbb", mkRat 7 10, 2, false⟩, ⟨3, "cccccccccccccccc", mkRat 3 5, 3, false⟩], [], 3⟩ : Engine).items).Nodup ∧
      (⟨3, "cccccccccccccccc", mkRat 3 5, 3, false⟩ : Frag) ∈ (⟨4, true, "", mkRat 3 10, [⟨1, "aaaaaaaa", mkRat 4 5, 1, false⟩, ⟨2, "bbbbbbbbbbbb", mkRat 7 10, 2, false⟩, ⟨3, "cccccccccccccccc", mkRat 3 5, 3, false⟩], [], 3⟩ : Engine).items ∧
      ({ (⟨2, "bbbbbbbbbbbb", mkRat 7 10, 2, false⟩ : Frag) with archived := true }) ∈ newlyArchived (⟨4, true, "", mkRat 3 10, [⟨1, "aaaaaaaa", mkRat 4 5, 1, false⟩, ⟨2, "bbbbbbbbbbbb", mkRat 7 10, 2, false⟩, ⟨3, "cccccccccccccccc", mkRat 3 5, 3, false⟩], [], 3⟩ : Engine)) ∧
      ({ (⟨3, "cccccccccccccccc", mkRat 3 5, 3, false⟩ : Frag) with archived := true }) ∈ newlyArchived (⟨4, true, "", mkRat 3 10, [⟨1, "aaaaaaaa", mkRat 4 5, 1, false⟩, ⟨2, "bbbbbbbbbbbb", mkRat 7 10, 2, false⟩, ⟨3, "cccccccccccccccc", mkRat 3 5, 3, false⟩], [], 3⟩ : Engine) :=
  ⟨⟨by decide, by decide, by decide⟩,
    C3_rejection_monotone_in_size (⟨4, true, "", mkRat 3 10, [⟨1, "aaaaaaaa", mkRat 4 5, 1, false⟩, ⟨2, "bbbbbbbbbbbb", mkRat 7 10, 2, false⟩, ⟨3, "cccccccccccccccc", mkRat 3 5, 3, false⟩], [], 3⟩ : Engine)
      ⟨2, "bbbbbbbbbbbb", mkRat 7 10, 2, false⟩ ⟨3, "cccccccccccccccc", mkRat 3 5, 3, false⟩ (by decide) (by decide)
      (by decide) (by decide) (by decide)⟩

end ContextCompression
